import Mathlib

/-!
Verification development for a small Rust web server built on a fixed-size
thread pool (`src/lib.rs`) and an HTTP connection handler (`src/main.rs`).

Two complementary shallow embeddings are used:

* a *static* embedding of the `ThreadPool` / `Worker` structures and of the
  straight-line operations on them (`ThreadPool::new`, `ThreadPool::execute`,
  `impl Drop for ThreadPool`), where `Option` models the presence/absence of
  the `sender` and of each worker's `JoinHandle`, and where the destructor is
  additionally instrumented with an event trace recording the order of its
  effects;

* a *dynamic* embedding (namespace `Sem`) of the running system as an
  interleaving small-step semantics: the channel is a FIFO list of jobs, each
  worker is in one of the phases of its `thread::spawn(move || loop {...})`
  body (idle at the top of the loop, holding the receiver lock inside `recv`,
  executing a dequeued job with the lock released, or stopped after `break`),
  and the enabled atomic actions are exactly the ones the Rust code can take.

Jobs (`Box<dyn FnOnce() + Send + 'static>`) are type-erased closures with no
observable value, so they are represented by abstract identifiers.
-/

/-- A job is a type-erased one-shot closure; we identify jobs abstractly. -/
abbrev Job := Nat

/-- Mirror of the Rust `Worker` struct: a numeric id, the shared consuming-end
handle it was given (`Arc<Mutex<mpsc::Receiver<Job>>>`, identified by the
allocation it points to), and an optional thread handle
(`Option<thread::JoinHandle<()>>`). -/
structure Worker where
  id : Nat
  receiver : Nat
  handle : Option Unit
  deriving DecidableEq

/-- Mirror of the Rust `ThreadPool` struct: the vector of workers and the
optional producing end (`Option<mpsc::Sender<Job>>`). -/
structure ThreadPool where
  workers : List Worker
  sender : Option Unit
  deriving DecidableEq

/-- `Worker::new(id, receiver)`: spawns the worker thread (so the handle is
present) and stores the id and the shared receiver handle. -/
def Worker.new (id : Nat) (receiver : Nat) : Worker :=
  { id := id, receiver := receiver, handle := some () }

/-- `ThreadPool::new(num_threads)`: `assert!(num_threads > 0)` aborts on 0
(modelled as `none`); otherwise a channel is created, its consuming end is
wrapped in one shared `Arc<Mutex<..>>` (one allocation, identified here by
`0`), and ids `0..num_threads` each get a worker cloned onto that same
allocation; the producing end is stored as `Some(sender)`. -/
def ThreadPool.new (num_threads : Nat) : Option ThreadPool :=
  if num_threads > 0 then
    some { workers := (List.range num_threads).map (fun id => Worker.new id 0),
           sender := some () }
  else
    none

/-- `ThreadPool::execute(f)` sends the boxed job through
`self.sender.as_ref().unwrap().send(job).unwrap()`. If the sender is present
the send succeeds and appends the job to the channel's FIFO buffer; if the
sender is absent, `unwrap()` on `None` aborts (modelled as `none`). -/
def ThreadPool.execute (p : ThreadPool) (queue : List Job) (j : Job) :
    Option (List Job) :=
  match p.sender with
  | some _ => some (queue ++ [j])
  | none => none

/-- A concrete two-worker pool, as built by `ThreadPool::new(2)`; used to
evaluate the destructor on a concrete input. -/
def poolTwo : ThreadPool :=
  { workers := [Worker.new 0 0, Worker.new 1 0], sender := some () }

/-- Observable effects of the destructor, in the order it performs them. -/
inductive Ev where
  | closeSender
  | join (id : Nat)
  deriving DecidableEq

/-- One iteration of the destructor's loop body:
`if let Some(handle) = worker.handle.take() { handle.join().unwrap(); }`. -/
def joinWorker (w : Worker) : Worker × List Ev :=
  match w.handle with
  | some _ => ({ w with handle := none }, [Ev.join w.id])
  | none => (w, [])

/-- The destructor's `for worker in &mut self.workers` loop, front to back. -/
def dropWorkers : List Worker → List Worker × List Ev
  | [] => ([], [])
  | w :: ws =>
      let p := joinWorker w
      let q := dropWorkers ws
      (p.1 :: q.1, p.2 ++ q.2)

/-- `impl Drop for ThreadPool`: first `drop(self.sender.take())` closes the
producing end, then each worker is joined in construction order. Returns the
final state of the struct together with the trace of effects. -/
def ThreadPool.dropPool (p : ThreadPool) : ThreadPool × List Ev :=
  let q := dropWorkers p.workers
  ({ workers := q.1, sender := none }, Ev.closeSender :: q.2)

/-!
Embedding of `handle_connection` from `src/main.rs`. The function reads the
first request line, selects a status line and a file name by matching the
line, reads the file, and formats the response. File contents are modelled by
a function from file names to contents.
-/

/-- The `match &request_line[..]` in `handle_connection`: returns the status
line and the file name whose contents become the body. The `/sleep` arm also
sleeps 5 seconds before returning the same pair; the delay has no effect on
the value produced. -/
def chooseResponse (request_line : String) : String × String :=
  if request_line = "GET / HTTP/1.1" then
    ("HTTP/1.1 200 OK", "pages/hello.html")
  else if request_line = "GET /sleep HTTP/1.1" then
    ("HTTP/1.1 200 OK", "pages/hello.html")
  else
    ("HTTP/1.1 404 NOT FOUND", "pages/404.html")

/-- The `format!` call: status line, CRLF, `Content-Length` header whose value
is `contents.len()` (the byte length of the body), CRLF, empty line, body. -/
def mkResponse (status_line contents : String) : String :=
  status_line ++ "\r\n" ++ "Content-Length: " ++
    toString contents.utf8ByteSize ++ "\r\n\r\n" ++ contents

/-- `handle_connection`, as a function of the file system and the first
request line: decide status line and file, read the file, format the
response. -/
def handle_connection (readFile : String → String) (request_line : String) :
    String :=
  let sf := chooseResponse request_line
  let contents := readFile sf.2
  mkResponse sf.1 contents

/-!
Dynamic embedding: the running pool as an interleaving small-step semantics.
Each worker thread runs `loop { let message = receiver.lock().unwrap().recv();
match message { Ok(job) => { ...; job(); } Err(_) => break } }`. The
`MutexGuard` returned by `lock()` is a temporary of the `let` statement, so
the lock is held exactly while blocked inside `recv()` and is released before
`job()` runs. The channel is an unbounded FIFO; `recv` returns `Ok` whenever
a message is buffered (even after the sender is dropped) and returns `Err`
exactly when the buffer is empty and the sender has been dropped.
-/
namespace Sem

/-- Where a worker thread is inside its loop body. -/
inductive Phase where
  /-- at the top of the loop, about to call `receiver.lock()` -/
  | idle
  /-- holding the receiver lock, blocked inside `recv()` -/
  | locked
  /-- lock released, running `job()` -/
  | executing (j : Job)
  /-- after `break`: the thread has exited its loop -/
  | stopped
  deriving DecidableEq

/-- A running worker: its id and the phase its thread is in. -/
structure Worker where
  id : Nat
  phase : Phase
  deriving DecidableEq

/-- Global state of the running pool: buffered channel messages (FIFO),
whether the producing end is still present, the workers, and two history
variables recording every submission and every completed execution (tagged
with the id of the worker that ran it). -/
structure State where
  queue : List Job
  senderPresent : Bool
  workers : List Worker
  submitted : List Job
  executed : List (Nat × Job)
  deriving DecidableEq

/-- The atomic actions the system can take: a submission via `execute`, the
destructor dropping the sender, and the steps of each worker's loop. -/
inductive Act where
  | submit (j : Job)
  | closeSender
  /-- worker `i` wins `receiver.lock()` -/
  | acquire (i : Nat)
  /-- `recv()` returns `Ok(job)`: the head message is removed, the guard is
  dropped, and the worker starts running the job -/
  | dequeue (i : Nat)
  /-- `job()` returns; the worker goes back to the top of the loop -/
  | finish (i : Nat)
  /-- `recv()` returns `Err`: buffer empty and sender dropped; the worker
  releases the lock and breaks out of its loop -/
  | stop (i : Nat)
  deriving DecidableEq

/-- Effect of one atomic action, `none` when the action is not enabled. -/
def apply (a : Act) (s : State) : Option State :=
  match a with
  | .submit j =>
      if s.senderPresent then
        some { s with queue := s.queue ++ [j], submitted := s.submitted ++ [j] }
      else none
  | .closeSender =>
      if s.senderPresent then some { s with senderPresent := false } else none
  | .acquire i =>
      match s.workers[i]? with
      | some w =>
          if w.phase = .idle ∧ ∀ w' ∈ s.workers, w'.phase ≠ .locked then
            some { s with workers := s.workers.set i { w with phase := .locked } }
          else none
      | none => none
  | .dequeue i =>
      match s.workers[i]? with
      | some w =>
          match s.queue with
          | j :: rest =>
              if w.phase = .locked then
                some { s with queue := rest,
                              workers := s.workers.set i { w with phase := .executing j } }
              else none
          | [] => none
      | none => none
  | .finish i =>
      match s.workers[i]? with
      | some w =>
          match w.phase with
          | .executing j =>
              some { s with workers := s.workers.set i { w with phase := .idle },
                            executed := s.executed ++ [(w.id, j)] }
          | _ => none
      | none => none
  | .stop i =>
      match s.workers[i]? with
      | some w =>
          if w.phase = .locked ∧ s.queue = [] ∧ s.senderPresent = false then
            some { s with workers := s.workers.set i { w with phase := .stopped } }
          else none
      | none => none

/-- State right after `ThreadPool::new(n)` returns: empty channel, sender
present, `n` idle workers with ids `0..n`. -/
def initState (n : Nat) : State :=
  { queue := [], senderPresent := true,
    workers := (List.range n).map (fun id => { id := id, phase := .idle }),
    submitted := [], executed := [] }

/-- One enabled atomic action. -/
def StepR (s s' : State) : Prop := ∃ a, apply a s = some s'

/-- States reachable from a fresh pool of `n` workers. -/
def Reachable (n : Nat) (s : State) : Prop :=
  Relation.ReflTransGen StepR (initState n) s

/-- Run a list of actions in order; `none` if any action is not enabled. -/
def runActs (acts : List Act) (s : State) : Option State :=
  match acts with
  | [] => some s
  | a :: rest =>
      match apply a s with
      | some s' => runActs rest s'
      | none => none

/-- The job a worker is currently running, if any. -/
def jobOf (w : Worker) : Option Job :=
  match w.phase with
  | .executing j => some j
  | _ => none

/-- Jobs currently mid-execution across the workers. -/
def executingJobs (ws : List Worker) : List Job := ws.filterMap jobOf

/-- Number of workers currently holding the receiver lock. -/
def lockedCount (ws : List Worker) : Nat :=
  ws.countP (fun w => decide (w.phase = Phase.locked))

/-- The three observable worker states of the specification: Idle (blocked
acquiring the lock or waiting inside `recv`), Executing, and the terminal
Stopped. -/
inductive SpecState where
  | SIdle
  | SExecuting
  | SStopped
  deriving DecidableEq

/-- Map a concrete loop phase to the specification's observable state:
waiting for the lock and waiting inside `recv` are both Idle. -/
def specPhase : Phase → SpecState
  | .idle => .SIdle
  | .locked => .SIdle
  | .executing _ => .SExecuting
  | .stopped => .SStopped

/-- Coercion of list append into multiset sum. -/
theorem coe_append {β : Type} (l1 l2 : List β) :
    (↑(l1 ++ l2) : Multiset β) = ↑l1 + ↑l2 := rfl

/-- Membership from a successful indexed lookup. -/
theorem mem_of_lookup {α : Type} {l : List α} {n : Nat} {a : α}
    (h : l[n]? = some a) : a ∈ l := by
  obtain ⟨hlt, rfl⟩ := List.getElem?_eq_some.mp h
  exact List.getElem_mem hlt

/-- `filterMap` over a cons, phrased with `Option.toList`. -/
theorem filterMap_cons_toList {α β : Type} (f : α → Option β) (a : α)
    (t : List α) :
    List.filterMap f (a :: t) = (f a).toList ++ List.filterMap f t := by
  cases h : f a <;> simp [List.filterMap_cons, h]

/-- How `filterMap` changes when one position of a list is overwritten:
the image of the removed element plus the new `filterMap` balances the image
of the inserted element plus the old `filterMap`, as multisets. -/
theorem filterMap_set_add {α β : Type} (f : α → Option β) (l : List α)
    (i : Nat) (x w : α) (h : l[i]? = some w) :
    (↑(List.filterMap f (l.set i x)) : Multiset β) + ↑(f w).toList =
      ↑(List.filterMap f l) + ↑(f x).toList := by
  induction l generalizing i with
  | nil => simp at h
  | cons a t ih =>
      cases i with
      | zero =>
          simp only [List.getElem?_cons_zero, Option.some_inj] at h
          subst h
          simp only [List.set, filterMap_cons_toList, coe_append]
          abel
      | succ m =>
          simp only [List.getElem?_cons_succ] at h
          rw [List.set_cons_succ, filterMap_cons_toList, filterMap_cons_toList,
            coe_append, coe_append, add_assoc, add_assoc, ih m h]

/-- How `countP` changes when one position of a list is overwritten. -/
theorem countP_set_add {α : Type} (p : α → Bool) (l : List α) (i : Nat)
    (x w : α) (h : l[i]? = some w) :
    List.countP p (l.set i x) + (if p w then 1 else 0) =
      List.countP p l + (if p x then 1 else 0) := by
  induction l generalizing i with
  | nil => simp at h
  | cons a t ih =>
      cases i with
      | zero =>
          simp only [List.getElem?_cons_zero, Option.some_inj] at h
          subst h
          rw [List.set, List.countP_cons, List.countP_cons]
          omega
      | succ m =>
          simp only [List.getElem?_cons_succ] at h
          have h2 := ih m h
          rw [List.set_cons_succ, List.countP_cons, List.countP_cons]
          omega

/-- The inductive invariant of the running pool, for a pool built with `n`
workers. `conserve` is the conservation law: every submitted job is either
already executed, mid-execution on some worker, or still buffered.
`stopSender` and `allStopEmpty` record that a worker only stops after the
sender is gone and the buffer drained. `lockOne` is mutual exclusion on the
receiver lock. `isSuffix` says the buffer is always a suffix of the
submission history (FIFO order). `single` is the list-level conservation law
available when there is exactly one worker. -/
structure Inv (n : Nat) (s : State) : Prop where
  len : s.workers.length = n
  conserve : (↑s.submitted : Multiset Job) =
      ↑(s.executed.map Prod.snd) + ↑(executingJobs s.workers) + ↑s.queue
  stopSender : (∃ w ∈ s.workers, w.phase = Phase.stopped) →
      s.senderPresent = false
  allStopEmpty : 0 < n → (∀ w ∈ s.workers, w.phase = Phase.stopped) →
      s.queue = []
  lockOne : lockedCount s.workers ≤ 1
  isSuffix : ∃ pre, s.submitted = pre ++ s.queue
  single : n = 1 →
      s.submitted = s.executed.map Prod.snd ++ executingJobs s.workers ++ s.queue

/-- No job is mid-execution on a fresh pool. -/
theorem executingJobs_init (n : Nat) :
    executingJobs ((List.range n).map
      (fun id => ({ id := id, phase := Phase.idle } : Worker))) = [] := by
  simp [executingJobs, List.filterMap_eq_nil_iff, jobOf]

/-- Nobody holds the lock on a fresh pool. -/
theorem lockedCount_init (n : Nat) :
    lockedCount (initState n).workers = 0 := by
  simp [initState, lockedCount, List.countP_eq_zero]

/-- Indexed lookup in a singleton list. -/
theorem singleton_lookup {α : Type} {w0 w : α} {i : Nat}
    (h : [w0][i]? = some w) : i = 0 ∧ w = w0 := by
  rcases i with _ | i <;> simp_all

/-- Submission preserves the invariant. -/
theorem Inv.preservedSubmit {n : Nat} {s s' : State} {j : Job}
    (h : apply (Act.submit j) s = some s') (inv : Inv n s) : Inv n s' := by
  simp only [apply] at h
  split at h
  case isFalse => exact Option.noConfusion h
  case isTrue hs =>
    rw [Option.some_inj] at h
    subst h
    refine ⟨inv.len, ?_, ?_, ?_, inv.lockOne, ?_, ?_⟩
    · show (↑(s.submitted ++ [j]) : Multiset Job) =
        ↑(s.executed.map Prod.snd) + ↑(executingJobs s.workers) +
          ↑(s.queue ++ [j])
      rw [coe_append, coe_append, inv.conserve]
      abel
    · rintro ⟨w, hw, hst⟩
      exact absurd (inv.stopSender ⟨w, hw, hst⟩) (by simp [hs])
    · intro hn hall
      obtain ⟨w, hw⟩ :=
        List.exists_mem_of_length_pos (l := s.workers) (by rw [inv.len]; exact hn)
      exact absurd (inv.stopSender ⟨w, hw, hall w hw⟩) (by simp [hs])
    · obtain ⟨pre, hp⟩ := inv.isSuffix
      refine ⟨pre, ?_⟩
      show s.submitted ++ [j] = pre ++ (s.queue ++ [j])
      rw [hp, List.append_assoc]
    · intro h1
      show s.submitted ++ [j] =
        s.executed.map Prod.snd ++ executingJobs s.workers ++ (s.queue ++ [j])
      rw [inv.single h1]
      simp [List.append_assoc]

/-- Dropping the sender preserves the invariant. -/
theorem Inv.preservedClose {n : Nat} {s s' : State}
    (h : apply Act.closeSender s = some s') (inv : Inv n s) : Inv n s' := by
  simp only [apply] at h
  split at h
  case isFalse => exact Option.noConfusion h
  case isTrue hs =>
    rw [Option.some_inj] at h
    subst h
    exact ⟨inv.len, inv.conserve, fun _ => rfl,
      fun hn hall => inv.allStopEmpty hn hall, inv.lockOne, inv.isSuffix,
      fun h1 => inv.single h1⟩

/-- Winning the receiver lock preserves the invariant. -/
theorem Inv.preservedAcquire {n : Nat} {s s' : State} {i : Nat}
    (h : apply (Act.acquire i) s = some s') (inv : Inv n s) : Inv n s' := by
  cases hw : s.workers[i]? with
  | none => simp only [apply, hw] at h; exact Option.noConfusion h
  | some w =>
    simp only [apply, hw] at h
    split at h
    case isFalse => exact Option.noConfusion h
    case isTrue hc =>
      obtain ⟨hidle, hnol⟩ := hc
      rw [Option.some_inj] at h
      subst h
      have hi : i < s.workers.length := (List.getElem?_eq_some.mp hw).1
      have hexec :
          (↑(executingJobs (s.workers.set i { w with phase := Phase.locked }))
            : Multiset Job) = ↑(executingJobs s.workers) := by
        have h2 := filterMap_set_add jobOf s.workers i
          { w with phase := Phase.locked } w hw
        simp only [jobOf, hidle] at h2
        simpa using h2
      refine ⟨?_, ?_, ?_, ?_, ?_, inv.isSuffix, ?_⟩
      · show (s.workers.set i { w with phase := Phase.locked }).length = n
        rw [List.length_set]; exact inv.len
      · show (↑s.submitted : Multiset Job) = ↑(s.executed.map Prod.snd) +
          ↑(executingJobs (s.workers.set i { w with phase := Phase.locked })) +
          ↑s.queue
        rw [hexec]; exact inv.conserve
      · rintro ⟨w', hw', hst⟩
        rcases List.mem_or_eq_of_mem_set hw' with hmem | rfl
        · exact inv.stopSender ⟨w', hmem, hst⟩
        · exact absurd hst (by simp)
      · intro hn hall
        have hx : ({ w with phase := Phase.locked } : Worker) ∈
            s.workers.set i { w with phase := Phase.locked } := by
          apply mem_of_lookup (n := i)
          simp [List.getElem?_set_self, hi]
        exact absurd (hall _ hx) (by simp)
      · have h2 := countP_set_add (fun w => decide (w.phase = Phase.locked))
          s.workers i { w with phase := Phase.locked } w hw
        have hz : List.countP (fun w => decide (w.phase = Phase.locked))
            s.workers = 0 := by
          rw [List.countP_eq_zero]
          intro w' hw'
          simp [hnol w' hw']
        show lockedCount (s.workers.set i { w with phase := Phase.locked }) ≤ 1
        simp only [lockedCount]
        simp only [hidle] at h2
        simp at h2
        omega
      · intro h1
        obtain ⟨w0, hws⟩ := List.length_eq_one.mp (inv.len.trans h1)
        rw [hws] at hw
        obtain ⟨rfl, rfl⟩ := singleton_lookup hw
        have hs1 := inv.single h1
        rw [hws] at hs1
        show s.submitted = s.executed.map Prod.snd ++
          executingJobs (s.workers.set 0 { w with phase := Phase.locked }) ++
          s.queue
        rw [hws]
        simpa [executingJobs, filterMap_cons_toList, jobOf, hidle,
          List.set_cons_zero] using hs1

/-- Receiving a buffered job (which releases the lock and starts the job)
preserves the invariant. -/
theorem Inv.preservedDequeue {n : Nat} {s s' : State} {i : Nat}
    (h : apply (Act.dequeue i) s = some s') (inv : Inv n s) : Inv n s' := by
  cases hw : s.workers[i]? with
  | none => simp only [apply, hw] at h; exact Option.noConfusion h
  | some w =>
    simp only [apply, hw] at h
    cases hq : s.queue with
    | nil => simp only [hq] at h; exact Option.noConfusion h
    | cons j rest =>
      simp only [hq] at h
      split at h
      case isFalse => exact Option.noConfusion h
      case isTrue hlk =>
        rw [Option.some_inj] at h
        subst h
        have hi : i < s.workers.length := (List.getElem?_eq_some.mp hw).1
        have hexec :
            (↑(executingJobs (s.workers.set i
              { w with phase := Phase.executing j })) : Multiset Job)
              = ↑(executingJobs s.workers) + ↑([j] : List Job) := by
          have h2 := filterMap_set_add jobOf s.workers i
            { w with phase := Phase.executing j } w hw
          simpa [jobOf, hlk] using h2
        refine ⟨?_, ?_, ?_, ?_, ?_, ?_, ?_⟩
        · show (s.workers.set i { w with phase := Phase.executing j }).length = n
          rw [List.length_set]; exact inv.len
        · show (↑s.submitted : Multiset Job) = ↑(s.executed.map Prod.snd) +
            ↑(executingJobs (s.workers.set i
              { w with phase := Phase.executing j })) + ↑rest
          rw [hexec]
          have hc := inv.conserve
          rw [hq] at hc
          rw [hc, show (↑(j :: rest) : Multiset Job) =
            ↑([j] : List Job) + ↑rest from coe_append [j] rest]
          abel
        · rintro ⟨w', hw', hst⟩
          rcases List.mem_or_eq_of_mem_set hw' with hmem | rfl
          · exact inv.stopSender ⟨w', hmem, hst⟩
          · exact absurd hst (by simp)
        · intro hn hall
          have hx : ({ w with phase := Phase.executing j } : Worker) ∈
              s.workers.set i { w with phase := Phase.executing j } := by
            apply mem_of_lookup (n := i)
            simp [List.getElem?_set_self, hi]
          exact absurd (hall _ hx) (by simp)
        · have h2 := countP_set_add (fun w => decide (w.phase = Phase.locked))
            s.workers i { w with phase := Phase.executing j } w hw
          have hl := inv.lockOne
          simp only [lockedCount] at hl
          show lockedCount
            (s.workers.set i { w with phase := Phase.executing j }) ≤ 1
          simp only [lockedCount]
          simp [hlk] at h2
          omega
        · obtain ⟨pre, hp⟩ := inv.isSuffix
          rw [hq] at hp
          refine ⟨pre ++ [j], ?_⟩
          show s.submitted = (pre ++ [j]) ++ rest
          rw [hp, List.append_assoc]
          simp
        · intro h1
          obtain ⟨w0, hws⟩ := List.length_eq_one.mp (inv.len.trans h1)
          rw [hws] at hw
          obtain ⟨rfl, rfl⟩ := singleton_lookup hw
          have hs1 := inv.single h1
          rw [hws, hq] at hs1
          show s.submitted = s.executed.map Prod.snd ++
            executingJobs (s.workers.set 0
              { w with phase := Phase.executing j }) ++ rest
          rw [hws]
          simpa [executingJobs, filterMap_cons_toList, jobOf, hlk,
            List.set_cons_zero] using hs1

/-- The running job finishing (the worker records the completed execution and
returns to the top of its loop) preserves the invariant. -/
theorem Inv.preservedFinish {n : Nat} {s s' : State} {i : Nat}
    (h : apply (Act.finish i) s = some s') (inv : Inv n s) : Inv n s' := by
  cases hw : s.workers[i]? with
  | none => simp only [apply, hw] at h; exact Option.noConfusion h
  | some w =>
    simp only [apply, hw] at h
    cases hph : w.phase with
    | idle => simp only [hph] at h; exact Option.noConfusion h
    | locked => simp only [hph] at h; exact Option.noConfusion h
    | stopped => simp only [hph] at h; exact Option.noConfusion h
    | executing j =>
      simp only [hph] at h
      rw [Option.some_inj] at h
      subst h
      have hi : i < s.workers.length := (List.getElem?_eq_some.mp hw).1
      have hexec :
          (↑(executingJobs (s.workers.set i { w with phase := Phase.idle }))
            : Multiset Job) + ↑([j] : List Job)
            = ↑(executingJobs s.workers) := by
        have h2 := filterMap_set_add jobOf s.workers i
          { w with phase := Phase.idle } w hw
        simpa [jobOf, hph] using h2
      refine ⟨?_, ?_, ?_, ?_, ?_, inv.isSuffix, ?_⟩
      · show (s.workers.set i { w with phase := Phase.idle }).length = n
        rw [List.length_set]; exact inv.len
      · show (↑s.submitted : Multiset Job) =
          ↑(((s.executed ++ [(w.id, j)]).map Prod.snd)) +
          ↑(executingJobs (s.workers.set i { w with phase := Phase.idle })) +
          ↑s.queue
        rw [List.map_append]
        simp only [List.map_cons, List.map_nil]
        rw [coe_append, inv.conserve, ← hexec]
        abel
      · rintro ⟨w', hw', hst⟩
        rcases List.mem_or_eq_of_mem_set hw' with hmem | rfl
        · exact inv.stopSender ⟨w', hmem, hst⟩
        · exact absurd hst (by simp)
      · intro hn hall
        have hx : ({ w with phase := Phase.idle } : Worker) ∈
            s.workers.set i { w with phase := Phase.idle } := by
          apply mem_of_lookup (n := i)
          simp [List.getElem?_set_self, hi]
        exact absurd (hall _ hx) (by simp)
      · have h2 := countP_set_add (fun w => decide (w.phase = Phase.locked))
          s.workers i { w with phase := Phase.idle } w hw
        have hl := inv.lockOne
        simp only [lockedCount] at hl
        show lockedCount (s.workers.set i { w with phase := Phase.idle }) ≤ 1
        simp only [lockedCount]
        simp [hph] at h2
        omega
      · intro h1
        obtain ⟨w0, hws⟩ := List.length_eq_one.mp (inv.len.trans h1)
        rw [hws] at hw
        obtain ⟨rfl, rfl⟩ := singleton_lookup hw
        have hs1 := inv.single h1
        rw [hws] at hs1
        show s.submitted = ((s.executed ++ [(w.id, j)]).map Prod.snd) ++
          executingJobs (s.workers.set 0 { w with phase := Phase.idle }) ++
          s.queue
        rw [hws]
        simpa [executingJobs, filterMap_cons_toList, jobOf, hph,
          List.set_cons_zero, List.append_assoc] using hs1

/-- A worker observing closure (empty buffer, sender gone) and breaking out
of its loop preserves the invariant. -/
theorem Inv.preservedStop {n : Nat} {s s' : State} {i : Nat}
    (h : apply (Act.stop i) s = some s') (inv : Inv n s) : Inv n s' := by
  cases hw : s.workers[i]? with
  | none => simp only [apply, hw] at h; exact Option.noConfusion h
  | some w =>
    simp only [apply, hw] at h
    split at h
    case isFalse => exact Option.noConfusion h
    case isTrue hc =>
      obtain ⟨hlk, hqe, hse⟩ := hc
      rw [Option.some_inj] at h
      subst h
      have hi : i < s.workers.length := (List.getElem?_eq_some.mp hw).1
      have hexec :
          (↑(executingJobs (s.workers.set i { w with phase := Phase.stopped }))
            : Multiset Job) = ↑(executingJobs s.workers) := by
        have h2 := filterMap_set_add jobOf s.workers i
          { w with phase := Phase.stopped } w hw
        simpa [jobOf, hlk] using h2
      refine ⟨?_, ?_, ?_, ?_, ?_, inv.isSuffix, ?_⟩
      · show (s.workers.set i { w with phase := Phase.stopped }).length = n
        rw [List.length_set]; exact inv.len
      · show (↑s.submitted : Multiset Job) = ↑(s.executed.map Prod.snd) +
          ↑(executingJobs (s.workers.set i { w with phase := Phase.stopped })) +
          ↑s.queue
        rw [hexec]; exact inv.conserve
      · intro _; exact hse
      · intro _ _; exact hqe
      · have h2 := countP_set_add (fun w => decide (w.phase = Phase.locked))
          s.workers i { w with phase := Phase.stopped } w hw
        have hl := inv.lockOne
        simp only [lockedCount] at hl
        show lockedCount (s.workers.set i { w with phase := Phase.stopped }) ≤ 1
        simp only [lockedCount]
        simp [hlk] at h2
        omega
      · intro h1
        obtain ⟨w0, hws⟩ := List.length_eq_one.mp (inv.len.trans h1)
        rw [hws] at hw
        obtain ⟨rfl, rfl⟩ := singleton_lookup hw
        have hs1 := inv.single h1
        rw [hws] at hs1
        show s.submitted = s.executed.map Prod.snd ++
          executingJobs (s.workers.set 0 { w with phase := Phase.stopped }) ++
          s.queue
        rw [hws]
        simpa [executingJobs, filterMap_cons_toList, jobOf, hlk,
          List.set_cons_zero] using hs1

/-- Every enabled atomic action preserves the invariant. -/
theorem Inv.preserved {n : Nat} {s s' : State} (a : Act)
    (h : apply a s = some s') (inv : Inv n s) : Inv n s' := by
  cases a with
  | submit j => exact Inv.preservedSubmit h inv
  | closeSender => exact Inv.preservedClose h inv
  | acquire i => exact Inv.preservedAcquire h inv
  | dequeue i => exact Inv.preservedDequeue h inv
  | finish i => exact Inv.preservedFinish h inv
  | stop i => exact Inv.preservedStop h inv

/-- The invariant holds on a fresh pool. -/
theorem inv_init (n : Nat) : Inv n (initState n) := by
  refine ⟨by simp [initState], ?_, ?_, fun _ _ => rfl, ?_, ⟨[], rfl⟩, ?_⟩
  · simp [initState, executingJobs_init]
  · rintro ⟨w, hw, hst⟩
    simp only [initState, List.mem_map, List.mem_range] at hw
    obtain ⟨id, -, rfl⟩ := hw
    exact absurd hst (by simp)
  · simp [lockedCount_init]
  · intro h1
    simp [initState, executingJobs_init]

/-- The invariant holds in every reachable state. -/
theorem reachable_inv {n : Nat} {s : State} (h : Reachable n s) : Inv n s := by
  induction h with
  | refl => exact inv_init n
  | tail hsteps hstep ih =>
      obtain ⟨a, ha⟩ := hstep
      exact Inv.preserved a ha ih

/-- A successful run of a list of actions is a chain of steps. -/
theorem runActs_reflTrans (acts : List Act) (s s' : State)
    (h : runActs acts s = some s') : Relation.ReflTransGen StepR s s' := by
  induction acts generalizing s with
  | nil =>
      simp only [runActs, Option.some_inj] at h
      subst h
      exact Relation.ReflTransGen.refl
  | cons a rest ih =>
      simp only [runActs] at h
      cases ha : apply a s with
      | none => rw [ha] at h; exact Option.noConfusion h
      | some s1 =>
          rw [ha] at h
          exact Relation.ReflTransGen.head ⟨a, ha⟩ (ih s1 h)

/-- A state produced by running actions from a fresh pool is reachable. -/
theorem runActs_reachable (n : Nat) (acts : List Act) (s : State)
    (h : runActs acts (initState n) = some s) : Reachable n s :=
  runActs_reflTrans acts _ s h

/-- If every worker has stopped, no job is mid-execution. -/
theorem executingJobs_of_all_stopped {ws : List Worker}
    (h : ∀ w ∈ ws, w.phase = Phase.stopped) : executingJobs ws = [] := by
  rw [executingJobs, List.filterMap_eq_nil_iff]
  intro w hw
  simp [jobOf, h w hw]

end Sem

/-!
Claim theorems.
-/

/-- C3: `ThreadPool::new(0)` trips `assert!(num_threads > 0)` and aborts
deterministically — it never returns a pool. -/
theorem C3_new_zero_fails : ThreadPool.new 0 = none := rfl

/-- C2: for every `N ≥ 1`, `ThreadPool::new(N)` succeeds, returns a pool
whose producing end is present, and eagerly builds exactly `N` workers whose
ids are `0, ..., N-1` in order (hence distinct and in `[0, N)`), each with a
live thread handle and each holding the same shared consuming-end
allocation. -/
theorem C2_new_spawns_workers (n : Nat) (hn : 1 ≤ n) :
    ∃ p : ThreadPool, ThreadPool.new n = some p ∧
      p.sender.isSome = true ∧
      p.workers.length = n ∧
      p.workers.map Worker.id = List.range n ∧
      (p.workers.map Worker.id).Nodup ∧
      (∀ w ∈ p.workers, w.handle.isSome = true ∧ w.id < n) ∧
      (∀ w ∈ p.workers, ∀ w' ∈ p.workers, w.receiver = w'.receiver) := by
  have h0 : 0 < n := hn
  have hmap : ((List.range n).map (fun id => Worker.new id 0)).map Worker.id
      = List.range n := by
    simp [List.map_map, Function.comp_def, Worker.new]
  refine ⟨{ workers := (List.range n).map (fun id => Worker.new id 0),
            sender := some () },
    ?_, rfl, by simp, hmap, by rw [hmap]; exact List.nodup_range n, ?_, ?_⟩
  · simp [ThreadPool.new, h0]
  · intro w hw
    simp only [List.mem_map, List.mem_range] at hw
    obtain ⟨id, hid, rfl⟩ := hw
    exact ⟨rfl, hid⟩
  · intro w hw w' hw'
    simp only [List.mem_map] at hw hw'
    obtain ⟨id, -, rfl⟩ := hw
    obtain ⟨id', -, rfl⟩ := hw'
    rfl

/-- Witness for C2 at `N = 3`. -/
theorem C2_new_spawns_workers_witness :
    ∃ p : ThreadPool, ThreadPool.new 3 = some p ∧
      p.sender.isSome = true ∧
      p.workers.length = 3 ∧
      p.workers.map Worker.id = List.range 3 ∧
      (p.workers.map Worker.id).Nodup ∧
      (∀ w ∈ p.workers, w.handle.isSome = true ∧ w.id < 3) ∧
      (∀ w ∈ p.workers, ∀ w' ∈ p.workers, w.receiver = w'.receiver) :=
  C2_new_spawns_workers 3 (by decide)

/-- Helper for C4: the destructor's loop on a list of workers whose handles
are all present takes every handle and emits one join per worker, in list
order. -/
theorem dropWorkers_all_present (ws : List Worker)
    (h : ∀ w ∈ ws, w.handle.isSome = true) :
    dropWorkers ws = (ws.map (fun w => { w with handle := none }),
      ws.map (fun w => Ev.join w.id)) := by
  induction ws with
  | nil => rfl
  | cons w t ih =>
      have hw := h w (by simp)
      have ht := ih (fun w' hw' => h w' (by simp [hw']))
      cases hh : w.handle with
      | none => rw [hh] at hw; simp at hw
      | some u => simp [dropWorkers, joinWorker, hh, ht]

/-- C4: on a freshly constructed pool the destructor first closes the
producing end — present before, absent after, with `closeSender` occurring
exactly once, at the head of the trace, before every join — and then joins
the workers in construction order, ids `0, ..., N-1`, one single join per
worker, taking each handle from present to absent. -/
theorem C4_drop_sequence (n : Nat) (hn : 1 ≤ n) (p : ThreadPool)
    (hp : ThreadPool.new n = some p) :
    p.sender.isSome = true ∧
    (∀ w ∈ p.workers, w.handle.isSome = true) ∧
    (ThreadPool.dropPool p).1.sender = none ∧
    (∀ w ∈ (ThreadPool.dropPool p).1.workers, w.handle = none) ∧
    (ThreadPool.dropPool p).2 = Ev.closeSender :: (List.range n).map Ev.join ∧
    (ThreadPool.dropPool p).2.count Ev.closeSender = 1 ∧
    ((ThreadPool.dropPool p).2.tail).Nodup := by
  have h0 : 0 < n := hn
  rw [ThreadPool.new, if_pos h0, Option.some_inj] at hp
  subst hp
  have hall : ∀ w ∈ (List.range n).map (fun id => Worker.new id 0),
      w.handle.isSome = true := by
    intro w hw
    simp only [List.mem_map] at hw
    obtain ⟨id, -, rfl⟩ := hw
    rfl
  have hdw := dropWorkers_all_present _ hall
  have htr : (ThreadPool.dropPool
      { workers := (List.range n).map (fun id => Worker.new id 0),
        sender := some () }).2
      = Ev.closeSender :: (List.range n).map Ev.join := by
    show Ev.closeSender ::
      (dropWorkers ((List.range n).map (fun id => Worker.new id 0))).2 = _
    rw [hdw]
    simp [List.map_map, Worker.new, Function.comp]
  refine ⟨rfl, hall, rfl, ?_, htr, ?_, ?_⟩
  · show ∀ w ∈ (dropWorkers ((List.range n).map (fun id => Worker.new id 0))).1,
      w.handle = none
    rw [hdw]
    intro w hw
    simp only [List.mem_map] at hw
    obtain ⟨w', -, rfl⟩ := hw
    rfl
  · rw [htr]
    simp [List.count_cons, List.count_eq_zero]
  · rw [htr]
    exact (List.nodup_range n).map (fun a b hab => by injection hab)

/-- Witness for C4 at `N = 2`. -/
theorem C4_drop_sequence_witness :
    poolTwo.sender.isSome = true ∧
    (∀ w ∈ poolTwo.workers, w.handle.isSome = true) ∧
    (ThreadPool.dropPool poolTwo).1.sender = none ∧
    (∀ w ∈ (ThreadPool.dropPool poolTwo).1.workers, w.handle = none) ∧
    (ThreadPool.dropPool poolTwo).2
      = Ev.closeSender :: (List.range 2).map Ev.join ∧
    (ThreadPool.dropPool poolTwo).2.count Ev.closeSender = 1 ∧
    ((ThreadPool.dropPool poolTwo).2.tail).Nodup :=
  C4_drop_sequence 2 (by decide) poolTwo (by rfl)

/-- C5: `execute` succeeds and enqueues the job at the back of the channel
while the pool has not begun shutdown (the sender is present); once shutdown
has begun the sender is absent and the call fails — `unwrap()` on `None`
aborts — rather than silently accepting and losing the job. -/
theorem C5_execute_vs_shutdown (p : ThreadPool) (q : List Job) (j : Job) :
    (p.sender.isSome = true → ThreadPool.execute p q j = some (q ++ [j])) ∧
    (p.sender = none → ThreadPool.execute p q j = none) := by
  constructor
  · intro hs
    cases hp : p.sender with
    | none => rw [hp] at hs; simp at hs
    | some u => simp [ThreadPool.execute, hp]
  · intro hs
    simp [ThreadPool.execute, hs]

/-- Witness for C5: a live pool accepts a job; a pool whose sender is gone
aborts the submission. -/
theorem C5_execute_vs_shutdown_witness :
    ThreadPool.execute { workers := [], sender := some () } [] 7 = some [7] ∧
    ThreadPool.execute { workers := [], sender := none } [] 7 = none :=
  ⟨(C5_execute_vs_shutdown { workers := [], sender := some () } [] 7).1 rfl,
   (C5_execute_vs_shutdown { workers := [], sender := none } [] 7).2 rfl⟩

/-- C9: `handle_connection` decides the response solely from the first
request line: exactly `GET / HTTP/1.1` gives `HTTP/1.1 200 OK` with the body
of `pages/hello.html`; exactly `GET /sleep HTTP/1.1` gives the same response
(after its delay); every other line gives `HTTP/1.1 404 NOT FOUND` with the
body of `pages/404.html`. -/
theorem C9_response_cases (readFile : String → String) (line : String) :
    (line = "GET / HTTP/1.1" →
      handle_connection readFile line =
        mkResponse "HTTP/1.1 200 OK" (readFile "pages/hello.html")) ∧
    (line = "GET /sleep HTTP/1.1" →
      handle_connection readFile line =
        mkResponse "HTTP/1.1 200 OK" (readFile "pages/hello.html")) ∧
    (line ≠ "GET / HTTP/1.1" → line ≠ "GET /sleep HTTP/1.1" →
      handle_connection readFile line =
        mkResponse "HTTP/1.1 404 NOT FOUND" (readFile "pages/404.html")) := by
  refine ⟨?_, ?_, ?_⟩
  · intro h
    subst h
    rfl
  · intro h
    subst h
    rfl
  · intro h1 h2
    simp [handle_connection, chooseResponse, h1, h2]

/-- Witness for C9 on the three kinds of request lines. -/
theorem C9_response_cases_witness :
    (handle_connection (fun _ => "body") "GET / HTTP/1.1" =
      mkResponse "HTTP/1.1 200 OK" "body") ∧
    (handle_connection (fun _ => "body") "GET /sleep HTTP/1.1" =
      mkResponse "HTTP/1.1 200 OK" "body") ∧
    (handle_connection (fun _ => "body") "GET /missing HTTP/1.1" =
      mkResponse "HTTP/1.1 404 NOT FOUND" "body") :=
  ⟨(C9_response_cases (fun _ => "body") "GET / HTTP/1.1").1 rfl,
   (C9_response_cases (fun _ => "body") "GET /sleep HTTP/1.1").2.1 rfl,
   (C9_response_cases (fun _ => "body") "GET /missing HTTP/1.1").2.2
     (by decide) (by decide)⟩

/-- C10: every response is formatted as the status line, CRLF, a
`Content-Length` header whose value is the byte length (the size of the
UTF-8 encoding) of the body read from the selected file, a blank line, and
then the body. -/
theorem C10_content_length_format (readFile : String → String)
    (line : String) :
    handle_connection readFile line =
      (chooseResponse line).1 ++ "\r\n" ++ "Content-Length: " ++
        toString ((readFile (chooseResponse line).2).toUTF8).size ++
        "\r\n\r\n" ++ readFile (chooseResponse line).2 := by
  rw [String.size_toUTF8]
  rfl

/-- C1: in any reachable state of a pool of `n ≥ 1` workers in which every
worker has stopped (the condition the destructor's joins wait for), the
executed jobs are a permutation of the submitted jobs: every job submitted
through `execute` before the sender closed was dequeued and run by exactly
one worker exactly once — counting multiplicity — and none was dropped. -/
theorem C1_all_jobs_executed (n : Nat) (hn : 1 ≤ n) (s : Sem.State)
    (hr : Sem.Reachable n s)
    (hstop : ∀ w ∈ s.workers, w.phase = Sem.Phase.stopped) :
    s.submitted.Perm (s.executed.map Prod.snd) ∧
    ∀ j : Job, (s.executed.map Prod.snd).count j = s.submitted.count j := by
  have inv := Sem.reachable_inv hr
  have hq : s.queue = [] := inv.allStopEmpty hn hstop
  have hex := Sem.executingJobs_of_all_stopped hstop
  have hc := inv.conserve
  rw [hq, hex] at hc
  simp at hc
  have hperm : s.submitted.Perm (s.executed.map Prod.snd) := hc
  exact ⟨hperm, fun j => (hperm.count_eq j).symm⟩

/-- Witness for C1: a one-worker pool that receives one job, is shut down,
drains the job, and stops; the executed jobs match the submitted ones. -/
theorem C1_all_jobs_executed_witness :
    (Sem.runActs
      [Sem.Act.submit 7, Sem.Act.closeSender, Sem.Act.acquire 0,
       Sem.Act.dequeue 0, Sem.Act.finish 0, Sem.Act.acquire 0,
       Sem.Act.stop 0]
      (Sem.initState 1) =
      some { queue := [], senderPresent := false,
             workers := [{ id := 0, phase := Sem.Phase.stopped }],
             submitted := [7], executed := [(0, 7)] }) ∧
    ([7] : List Job).Perm ([((0 : Nat), (7 : Job))].map Prod.snd) ∧
    (∀ j : Job,
      ([((0 : Nat), (7 : Job))].map Prod.snd).count j =
        ([7] : List Job).count j) := by
  refine ⟨by decide, ?_⟩
  exact C1_all_jobs_executed 1 (by decide)
    { queue := [], senderPresent := false,
      workers := [{ id := 0, phase := Sem.Phase.stopped }],
      submitted := [7], executed := [(0, 7)] }
    (Sem.runActs_reachable 1
      [Sem.Act.submit 7, Sem.Act.closeSender, Sem.Act.acquire 0,
       Sem.Act.dequeue 0, Sem.Act.finish 0, Sem.Act.acquire 0,
       Sem.Act.stop 0]
      _ (by decide))
    (by decide)

/-- C6: the dispatch channel preserves submission order — in every reachable
state the buffered jobs form a suffix of the submission history, in order —
and with pool size 1 the single worker executes the jobs in exactly the
order they were submitted: once it has stopped, the executed-job history
equals the submission history as a list. -/
theorem C6_order_preserved (n : Nat) (s : Sem.State)
    (hr : Sem.Reachable n s) :
    (∃ pre, s.submitted = pre ++ s.queue) ∧
    (n = 1 → (∀ w ∈ s.workers, w.phase = Sem.Phase.stopped) →
      s.executed.map Prod.snd = s.submitted) := by
  have inv := Sem.reachable_inv hr
  refine ⟨inv.isSuffix, ?_⟩
  intro h1 hstop
  have hq : s.queue = [] := inv.allStopEmpty (by omega) hstop
  have hex := Sem.executingJobs_of_all_stopped hstop
  have hs1 := inv.single h1
  rw [hq, hex] at hs1
  simpa using hs1.symm

/-- Witness for C6: a one-worker pool given two jobs executes them in
submission order. -/
theorem C6_order_preserved_witness :
    (Sem.runActs
      [Sem.Act.submit 5, Sem.Act.submit 9, Sem.Act.closeSender,
       Sem.Act.acquire 0, Sem.Act.dequeue 0, Sem.Act.finish 0,
       Sem.Act.acquire 0, Sem.Act.dequeue 0, Sem.Act.finish 0,
       Sem.Act.acquire 0, Sem.Act.stop 0]
      (Sem.initState 1) =
      some { queue := [], senderPresent := false,
             workers := [{ id := 0, phase := Sem.Phase.stopped }],
             submitted := [5, 9], executed := [(0, 5), (0, 9)] }) ∧
    (∃ pre, ([5, 9] : List Job) = pre ++ ([] : List Job)) ∧
    ([((0 : Nat), (5 : Job)), (0, 9)].map Prod.snd = ([5, 9] : List Job)) := by
  refine ⟨by decide, ?_⟩
  have h := C6_order_preserved 1
    { queue := [], senderPresent := false,
      workers := [{ id := 0, phase := Sem.Phase.stopped }],
      submitted := [5, 9], executed := [(0, 5), (0, 9)] }
    (Sem.runActs_reachable 1
      [Sem.Act.submit 5, Sem.Act.submit 9, Sem.Act.closeSender,
       Sem.Act.acquire 0, Sem.Act.dequeue 0, Sem.Act.finish 0,
       Sem.Act.acquire 0, Sem.Act.dequeue 0, Sem.Act.finish 0,
       Sem.Act.acquire 0, Sem.Act.stop 0]
      _ (by decide))
  exact ⟨h.1, h.2 rfl (by decide)⟩

/-- C7: each worker follows the specified three-state machine. Whenever an
atomic action changes a worker's observable state, the transition is Idle →
Executing on receiving a job from a nonempty buffer, or Executing → Idle when
the job returns control, or Idle → Stopped exactly when the buffer is empty
and the producing end is closed. In particular Stopped never appears on the
left of a transition (it is terminal) and a worker never stops for any other
reason. -/
theorem C7_worker_state_machine (a : Sem.Act) (s s' : Sem.State)
    (h : Sem.apply a s = some s') (i : Nat) (w w' : Sem.Worker)
    (hw : s.workers[i]? = some w) (hw' : s'.workers[i]? = some w')
    (hch : Sem.specPhase w.phase ≠ Sem.specPhase w'.phase) :
    (Sem.specPhase w.phase = Sem.SpecState.SIdle ∧
      Sem.specPhase w'.phase = Sem.SpecState.SExecuting ∧
      ∃ j rest, s.queue = j :: rest ∧ w'.phase = Sem.Phase.executing j) ∨
    (Sem.specPhase w.phase = Sem.SpecState.SExecuting ∧
      Sem.specPhase w'.phase = Sem.SpecState.SIdle) ∨
    (Sem.specPhase w.phase = Sem.SpecState.SIdle ∧
      Sem.specPhase w'.phase = Sem.SpecState.SStopped ∧
      s.queue = [] ∧ s.senderPresent = false) := by
  cases a with
  | submit j =>
      simp only [Sem.apply] at h
      split at h
      case isFalse => exact Option.noConfusion h
      case isTrue hs =>
        rw [Option.some_inj] at h
        subst h
        have hww : some w = some w' := hw.symm.trans hw'
        rw [Option.some_inj] at hww
        subst hww
        exact absurd rfl hch
  | closeSender =>
      simp only [Sem.apply] at h
      split at h
      case isFalse => exact Option.noConfusion h
      case isTrue hs =>
        rw [Option.some_inj] at h
        subst h
        have hww : some w = some w' := hw.symm.trans hw'
        rw [Option.some_inj] at hww
        subst hww
        exact absurd rfl hch
  | acquire k =>
      cases hwk : s.workers[k]? with
      | none => simp only [Sem.apply, hwk] at h; exact Option.noConfusion h
      | some wk =>
          simp only [Sem.apply, hwk] at h
          split at h
          case isFalse => exact Option.noConfusion h
          case isTrue hc =>
            rw [Option.some_inj] at h
            subst h
            have hk : k < s.workers.length := (List.getElem?_eq_some.mp hwk).1
            by_cases hik : k = i
            · subst hik
              have hww : some wk = some w := hwk.symm.trans hw
              rw [Option.some_inj] at hww
              subst hww
              have hx : (s.workers.set k
                  { wk with phase := Sem.Phase.locked })[k]? =
                  some { wk with phase := Sem.Phase.locked } := by
                simp [List.getElem?_set_self, hk]
              have hww' : some ({ wk with phase := Sem.Phase.locked } :
                  Sem.Worker) = some w' := hx.symm.trans hw'
              rw [Option.some_inj] at hww'
              subst hww'
              exact absurd (by rw [hc.1]; rfl) hch
            · have hsame : (s.workers.set k
                  { wk with phase := Sem.Phase.locked })[i]? = s.workers[i]? :=
                List.getElem?_set_ne hik
              have hww : some w = some w' := hw.symm.trans (hsame.symm.trans hw')
              rw [Option.some_inj] at hww
              subst hww
              exact absurd rfl hch
  | dequeue k =>
      cases hwk : s.workers[k]? with
      | none => simp only [Sem.apply, hwk] at h; exact Option.noConfusion h
      | some wk =>
          simp only [Sem.apply, hwk] at h
          cases hq : s.queue with
          | nil => simp only [hq] at h; exact Option.noConfusion h
          | cons j rest =>
              simp only [hq] at h
              split at h
              case isFalse => exact Option.noConfusion h
              case isTrue hlk =>
                rw [Option.some_inj] at h
                subst h
                have hk : k < s.workers.length := (List.getElem?_eq_some.mp hwk).1
                by_cases hik : k = i
                · subst hik
                  have hww : some wk = some w := hwk.symm.trans hw
                  rw [Option.some_inj] at hww
                  subst hww
                  have hx : (s.workers.set k
                      { wk with phase := Sem.Phase.executing j })[k]? =
                      some { wk with phase := Sem.Phase.executing j } := by
                    simp [List.getElem?_set_self, hk]
                  have hww' : some ({ wk with phase := Sem.Phase.executing j } :
                      Sem.Worker) = some w' := hx.symm.trans hw'
                  rw [Option.some_inj] at hww'
                  subst hww'
                  left
                  refine ⟨by rw [hlk]; rfl, rfl, j, rest, rfl, rfl⟩
                · have hsame : (s.workers.set k
                      { wk with phase := Sem.Phase.executing j })[i]? =
                      s.workers[i]? := List.getElem?_set_ne hik
                  have hww : some w = some w' :=
                    hw.symm.trans (hsame.symm.trans hw')
                  rw [Option.some_inj] at hww
                  subst hww
                  exact absurd rfl hch
  | finish k =>
      cases hwk : s.workers[k]? with
      | none => simp only [Sem.apply, hwk] at h; exact Option.noConfusion h
      | some wk =>
          simp only [Sem.apply, hwk] at h
          cases hph : wk.phase with
          | idle => simp only [hph] at h; exact Option.noConfusion h
          | locked => simp only [hph] at h; exact Option.noConfusion h
          | stopped => simp only [hph] at h; exact Option.noConfusion h
          | executing j =>
              simp only [hph] at h
              rw [Option.some_inj] at h
              subst h
              have hk : k < s.workers.length := (List.getElem?_eq_some.mp hwk).1
              by_cases hik : k = i
              · subst hik
                have hww : some wk = some w := hwk.symm.trans hw
                rw [Option.some_inj] at hww
                subst hww
                have hx : (s.workers.set k
                    { wk with phase := Sem.Phase.idle })[k]? =
                    some { wk with phase := Sem.Phase.idle } := by
                  simp [List.getElem?_set_self, hk]
                have hww' : some ({ wk with phase := Sem.Phase.idle } :
                    Sem.Worker) = some w' := hx.symm.trans hw'
                rw [Option.some_inj] at hww'
                subst hww'
                right; left
                exact ⟨by rw [hph]; rfl, rfl⟩
              · have hsame : (s.workers.set k
                    { wk with phase := Sem.Phase.idle })[i]? = s.workers[i]? :=
                  List.getElem?_set_ne hik
                have hww : some w = some w' :=
                  hw.symm.trans (hsame.symm.trans hw')
                rw [Option.some_inj] at hww
                subst hww
                exact absurd rfl hch
  | stop k =>
      cases hwk : s.workers[k]? with
      | none => simp only [Sem.apply, hwk] at h; exact Option.noConfusion h
      | some wk =>
          simp only [Sem.apply, hwk] at h
          split at h
          case isFalse => exact Option.noConfusion h
          case isTrue hc =>
            obtain ⟨hlk, hqe, hse⟩ := hc
            rw [Option.some_inj] at h
            subst h
            have hk : k < s.workers.length := (List.getElem?_eq_some.mp hwk).1
            by_cases hik : k = i
            · subst hik
              have hww : some wk = some w := hwk.symm.trans hw
              rw [Option.some_inj] at hww
              subst hww
              have hx : (s.workers.set k
                  { wk with phase := Sem.Phase.stopped })[k]? =
                  some { wk with phase := Sem.Phase.stopped } := by
                simp [List.getElem?_set_self, hk]
              have hww' : some ({ wk with phase := Sem.Phase.stopped } :
                  Sem.Worker) = some w' := hx.symm.trans hw'
              rw [Option.some_inj] at hww'
              subst hww'
              right; right
              exact ⟨by rw [hlk]; rfl, rfl, hqe, hse⟩
            · have hsame : (s.workers.set k
                  { wk with phase := Sem.Phase.stopped })[i]? = s.workers[i]? :=
                List.getElem?_set_ne hik
              have hww : some w = some w' :=
                hw.symm.trans (hsame.symm.trans hw')
              rw [Option.some_inj] at hww
              subst hww
              exact absurd rfl hch

/-- Witness for C7: the concrete Idle → Stopped transition of a one-worker
pool whose buffer is empty and whose sender is gone. -/
theorem C7_worker_state_machine_witness :
    (Sem.specPhase Sem.Phase.locked = Sem.SpecState.SIdle ∧
      Sem.specPhase Sem.Phase.stopped = Sem.SpecState.SExecuting ∧
      ∃ j rest, ([] : List Job) = j :: rest ∧
        Sem.Phase.stopped = Sem.Phase.executing j) ∨
    (Sem.specPhase Sem.Phase.locked = Sem.SpecState.SExecuting ∧
      Sem.specPhase Sem.Phase.stopped = Sem.SpecState.SIdle) ∨
    (Sem.specPhase Sem.Phase.locked = Sem.SpecState.SIdle ∧
      Sem.specPhase Sem.Phase.stopped = Sem.SpecState.SStopped ∧
      ([] : List Job) = [] ∧ (false : Bool) = false) :=
  C7_worker_state_machine (Sem.Act.stop 0)
    { queue := [], senderPresent := false,
      workers := [{ id := 0, phase := Sem.Phase.locked }],
      submitted := [], executed := [] }
    { queue := [], senderPresent := false,
      workers := [{ id := 0, phase := Sem.Phase.stopped }],
      submitted := [], executed := [] }
    (by decide) 0
    { id := 0, phase := Sem.Phase.locked }
    { id := 0, phase := Sem.Phase.stopped }
    (by decide) (by decide) (by decide)

/-- C8: the receiver lock is a true mutual-exclusion lock and is released
before a job runs. (i) In every reachable state at most one worker holds the
lock. (ii) Immediately after any dequeue — the action that hands a job to a
worker — no worker holds the lock: the critical section covers only the idle
wait and the dequeue, not the job's execution. (iii) With two workers, a
state in which two jobs are mid-execution simultaneously is reachable. -/
theorem C8_lock_discipline :
    (∀ n : Nat, ∀ s : Sem.State, Sem.Reachable n s →
      Sem.lockedCount s.workers ≤ 1) ∧
    (∀ (n : Nat) (s s' : Sem.State) (i : Nat), Sem.Reachable n s →
      Sem.apply (Sem.Act.dequeue i) s = some s' →
      Sem.lockedCount s'.workers = 0) ∧
    (∃ s : Sem.State, Sem.Reachable 2 s ∧
      2 ≤ (Sem.executingJobs s.workers).length) := by
  refine ⟨?_, ?_, ?_⟩
  · intro n s hr
    exact (Sem.reachable_inv hr).lockOne
  · intro n s s' i hr h
    have hl := (Sem.reachable_inv hr).lockOne
    simp only [Sem.lockedCount] at hl
    cases hw : s.workers[i]? with
    | none => simp only [Sem.apply, hw] at h; exact Option.noConfusion h
    | some w =>
        simp only [Sem.apply, hw] at h
        cases hq : s.queue with
        | nil => simp only [hq] at h; exact Option.noConfusion h
        | cons j rest =>
            simp only [hq] at h
            split at h
            case isFalse => exact Option.noConfusion h
            case isTrue hlk =>
              rw [Option.some_inj] at h
              subst h
              have h2 := Sem.countP_set_add
                (fun w => decide (w.phase = Sem.Phase.locked)) s.workers i
                { w with phase := Sem.Phase.executing j } w hw
              show Sem.lockedCount
                (s.workers.set i { w with phase := Sem.Phase.executing j }) = 0
              simp only [Sem.lockedCount]
              simp [hlk] at h2
              omega
  · refine ⟨{ queue := [], senderPresent := true,
              workers := [{ id := 0, phase := Sem.Phase.executing 1 },
                          { id := 1, phase := Sem.Phase.executing 2 }],
              submitted := [1, 2], executed := [] }, ?_, by decide⟩
    exact Sem.runActs_reachable 2
      [Sem.Act.submit 1, Sem.Act.submit 2, Sem.Act.acquire 0,
       Sem.Act.dequeue 0, Sem.Act.acquire 1, Sem.Act.dequeue 1] _ (by decide)

/-- Witness for C8: the lock bound on a fresh one-worker pool, and the
lock-free state right after a concrete dequeue. -/
theorem C8_lock_discipline_witness :
    Sem.lockedCount (Sem.initState 1).workers ≤ 1 ∧
    Sem.lockedCount
      [({ id := 0, phase := Sem.Phase.executing 3 } : Sem.Worker)] = 0 :=
  ⟨C8_lock_discipline.1 1 (Sem.initState 1) Relation.ReflTransGen.refl,
   C8_lock_discipline.2.1 1
     { queue := [3], senderPresent := true,
       workers := [{ id := 0, phase := Sem.Phase.locked }],
       submitted := [3], executed := [] }
     { queue := [], senderPresent := true,
       workers := [{ id := 0, phase := Sem.Phase.executing 3 }],
       submitted := [3], executed := [] }
     0
     (Sem.runActs_reachable 1 [Sem.Act.submit 3, Sem.Act.acquire 0] _
       (by decide))
     (by decide)⟩
